import Mathlib

/-!
Shallow embedding of the Emmet abbreviation command surface from
src/extensions/emmet/src/abbreviationActions.ts.

Editor primitives (positions, ranges, selections, documents) follow the
vscode extension API semantics that the source relies on; external
collaborators (expansion engine, option retrieval, snippet insertion,
generic abbreviation extraction) are modelled as abstract function
parameters, and their observable behaviour (engine calls, snippet
insertions, user visible error messages) is recorded in an effect trace.
-/

set_option autoImplicit false

namespace Emmet

/-- Editor position: zero based line and character, as in the vscode API. -/
structure Position where
  line : Nat
  character : Nat
deriving DecidableEq, Repr

/-- Modelled from the vscode API: strict lexicographic before test on positions. -/
def Position.isBefore (p q : Position) : Bool :=
  decide (p.line < q.line) || (decide (p.line = q.line) && decide (p.character < q.character))

/-- Modelled from the vscode API: strict lexicographic after test on positions. -/
def Position.isAfter (p q : Position) : Bool :=
  decide (q.line < p.line) || (decide (p.line = q.line) && decide (q.character < p.character))

/-- Modelled from the vscode API: translate a position by line and character deltas,
clamped at zero where the source would reject a negative coordinate. -/
def Position.translate (p : Position) (lineDelta charDelta : Int) : Position :=
  ⟨((p.line : Int) + lineDelta).toNat, ((p.character : Int) + charDelta).toNat⟩

/-- A range between two positions, as in the vscode API. -/
structure Range where
  start : Position
  «end» : Position
deriving DecidableEq, Repr

/-- Modelled from the vscode API: the Range constructor swaps the two endpoints
when the first is not before or equal to the second. -/
def mkRange (a b : Position) : Range :=
  if b.isBefore a then ⟨b, a⟩ else ⟨a, b⟩

/-- Modelled from the vscode API: a range is empty when start and end coincide. -/
def Range.isEmpty (r : Range) : Bool :=
  decide (r.start = r.«end»)

/-- Modelled from the vscode API: a range is single line when start and end share a line. -/
def Range.isSingleLine (r : Range) : Bool :=
  decide (r.start.line = r.«end».line)

/-- Modelled from the vscode API: range membership is inclusive at both endpoints. -/
def Range.contains (r : Range) (p : Position) : Bool :=
  !(p.isBefore r.start) && !(r.«end».isBefore p)

/-- A selection: anchor and active position, as in the vscode API. -/
structure Selection where
  anchor : Position
  active : Position
deriving DecidableEq, Repr

/-- Modelled from the vscode API: a selection is reversed when its active end
comes before its anchor. -/
def Selection.isReversed (s : Selection) : Bool :=
  s.active.isBefore s.anchor

/-- Modelled from the vscode API: the range view of a selection, with start the
earlier and end the later of anchor and active. -/
def Selection.toRange (s : Selection) : Range :=
  if s.isReversed then ⟨s.active, s.anchor⟩ else ⟨s.anchor, s.active⟩

/-- Modelled from the vscode API: the document operations the source reads,
lineAt(n).text and getText(range), kept abstract as function fields. -/
structure TextDocument where
  lineText : Nat → String
  getText : Range → String

/-- A parser token with a start and an end position (selector tokens of rule nodes). -/
structure Token where
  start : Position
  «end» : Position
deriving DecidableEq, Repr

/-- A node of the parsed document tree. The source reads the type string, the
parent back reference, the selector token of rule nodes and the close tag flag
of html nodes; the inner range of an element (the region strictly between its
opening and closing constructs) is stored as a field, see getInnerRange. -/
inductive ParsedNode : Type where
  | mk (type : String) (parent : Option ParsedNode) (selectorToken : Option Token)
      (close : Bool) (innerSpan : Range)

/-- The type string of a node. -/
def ParsedNode.type : ParsedNode → String
  | .mk t _ _ _ _ => t

/-- The parent of a node, when any. -/
def ParsedNode.parent : ParsedNode → Option ParsedNode
  | .mk _ p _ _ _ => p

/-- The selector token of a rule node, when any. -/
def ParsedNode.selectorToken : ParsedNode → Option Token
  | .mk _ _ s _ _ => s

/-- Whether an element node has a matching closing counterpart. -/
def ParsedNode.close : ParsedNode → Bool
  | .mk _ _ _ c _ => c

/-- The inner range of an element node. -/
def ParsedNode.innerSpan : ParsedNode → Range
  | .mk _ _ _ _ r => r

/-- Modelled from the spec: getInnerRange lives in util.ts, which is absent from
the sources; per the spec it returns the span strictly between the opening and
closing constructs of an element, stored here as a node field. -/
def getInnerRange (n : ParsedNode) : Range :=
  n.innerSpan

/-- Modelled from the spec: isStyleSheet is the external dialect test of
vscode-emmet-helper; the stylesheet dialects are css, scss, sass, less, stylus. -/
def isStyleSheet (syn : String) : Bool :=
  ["css", "scss", "sass", "less", "stylus"].contains syn

/-- First half of the workaround condition at lines 135-138 of the source:
the parent of the node exists and is itself a rule. -/
def parentIsRule (n : ParsedNode) : Bool :=
  match n.parent with
  | some par => par.type == "rule"
  | none => false

/-- Second half of the workaround condition at lines 135-138 of the source:
the selector token of the node exists and spans more than one line. -/
def selectorTokenMultiLine (n : ParsedNode) : Bool :=
  match n.selectorToken with
  | some tok => !(tok.start.line == tok.«end».line)
  | none => false

/-- Translation of isValidLocationForEmmetAbbreviation (lines 123-152 of the
source): decides whether the given position is a legal place to expand an
abbreviation, from the enclosing parsed node and the dialect. -/
def isValidLocationForEmmetAbbreviation (currentNode : Option ParsedNode) (syn : String)
    (position : Position) : Bool :=
  match currentNode with
  | none => !isStyleSheet syn
  | some node =>
    if isStyleSheet syn then
      if !(node.type == "rule") then
        true
      else if parentIsRule node && selectorTokenMultiLine node then
        true
      else
        match node.selectorToken with
        | some tok => position.isAfter tok.«end»
        | none => false
    else
      if node.close then
        (getInnerRange node).contains position
      else
        false

/-- A word character of the regular expressions in the source: an ascii letter,
digit or underscore. -/
def isWordChar (c : Char) : Bool :=
  c.isAlphanum || c == '_'

/-- Match of the regular expression anchored at the end of the text in
getAbbreviation (line 80 of the source): succeeds when the text ends in an
opening angle bracket followed by one or more word characters, returning the
word run (the first capture group). -/
def matchOpenTagEnd (s : List Char) : Option (List Char) :=
  let rev := s.reverse
  let wordRun := rev.takeWhile isWordChar
  if wordRun.isEmpty then none
  else
    match rev.drop wordRun.length with
    | '<' :: _ => some wordRun.reverse
    | _ => none

/-- Translation of the getAbbreviation closure inside expandAbbreviation
(lines 68-88 of the source). The generic extraction routine of
vscode-emmet-helper is an external collaborator, passed in abstractly. -/
def getAbbreviation (extractAbbreviation : TextDocument → Position → Range × String)
    (doc : TextDocument) (selection : Selection) (position : Position) (isHtml : Bool) :
    Range × String :=
  let rangeToReplace : Range := selection.toRange
  let abbreviation := doc.getText rangeToReplace
  if !rangeToReplace.isEmpty then
    (rangeToReplace, abbreviation)
  else if isHtml then
    let currentLine := doc.lineText position.line
    let textTillPosition := currentLine.data.take position.character
    match matchOpenTagEnd textTillPosition with
    | some w =>
      let abbr := String.mk w
      (mkRange (position.translate 0 (-((abbr.length : Int) + 1))) position, abbr)
    | none => extractAbbreviation doc position
  else
    extractAbbreviation doc position

/-- A whitespace character as matched by the regular expressions in the source. -/
def isJsSpace (c : Char) : Bool :=
  c == ' ' || c == '\t' || c == '\n' || c == '\r' || c == '\x0b' || c == '\x0c'

/-- The per cursor expansion request record of the source. The source names
its first field after the dialect of the abbreviation. -/
structure ExpandAbbreviationInput where
  syn : String
  abbreviation : String
  rangeToReplace : Range
  textToWrap : Option String
deriving DecidableEq, Repr

/-- Translation of the per selection request construction inside
wrapWithAbbreviation (lines 33-45 of the source): normalize a reversed
selection, widen an empty range to the whole start line, skip the leading
whitespace run at the range start, and attach the wrap text. -/
def wrapRequestForSelection (doc : TextDocument) (syn abbreviation : String)
    (selection : Selection) : ExpandAbbreviationInput :=
  let rangeToReplace : Range :=
    if selection.isReversed then mkRange selection.active selection.anchor
    else selection.toRange
  let rangeToReplace :=
    if rangeToReplace.isEmpty then
      mkRange ⟨rangeToReplace.start.line, 0⟩
        ⟨rangeToReplace.start.line, (doc.lineText rangeToReplace.start.line).length⟩
    else rangeToReplace
  let firstLineOfSelection :=
    (doc.lineText rangeToReplace.start.line).data.drop rangeToReplace.start.character
  let preceedingWhiteSpace := (firstLineOfSelection.takeWhile isJsSpace).length
  let rangeToReplace :=
    mkRange ⟨rangeToReplace.start.line, rangeToReplace.start.character + preceedingWhiteSpace⟩
      ⟨rangeToReplace.«end».line, rangeToReplace.«end».character⟩
  { syn := syn, abbreviation := abbreviation, rangeToReplace := rangeToReplace,
    textToWrap := some "\n\t$TM_SELECTED_TEXT\n" }

/-- Truthiness of an optional string value in the source language: an absent
value and the empty string are both falsy. -/
def jsTruthyStr : Option String → Bool
  | none => false
  | some s => !(s == "")

/-- The expansion options record. The source only ever writes the inlineBreak
profile entry; everything else getExpandOptions returns (profile tables, user
variables, wrap text plumbing) is kept abstract behind the two key fields. -/
structure ExpandOptions where
  dialectKey : String
  wrapKey : Option String
  inlineBreak : Option Nat
deriving DecidableEq, Repr

/-- The external collaborators of expandAbbr: option retrieval from
vscode-emmet-helper (closing over the emmet configuration the source reads)
and the expansion engine, which may fail. -/
structure Engine where
  getExpandOptions : String → Option String → ExpandOptions
  expand : String → ExpandOptions → Except Unit String

/-- The editor boundary: the result the snippet insertion call resolves to. -/
structure Editor where
  insertSnippetResult : String → List Range → Bool

/-- Observable effects of an expansion run: calls of the expansion engine,
snippet insertion calls with their target ranges, user visible error messages. -/
inductive Effect : Type where
  | engineCall (abbreviation : String)
  | insertCall (snippet : String) (ranges : List Range)
  | errorMessage (msg : String)
deriving DecidableEq, Repr

/-- Whether an effect is a snippet insertion (and hence a document change). -/
def Effect.isInsert : Effect → Bool
  | .insertCall _ _ => true
  | _ => false

/-- The literal wrapped text placeholder of the source. -/
def tmToken : List Char :=
  "$TM_SELECTED_TEXT".data

/-- Whether the second list starts with the first. -/
def startsWithChars : List Char → List Char → Bool
  | [], _ => true
  | _ :: _, [] => false
  | t :: ts, c :: cs => t == c && startsWithChars ts cs

/-- Split a character list around the first occurrence of the given token,
returning the part before it and the part after it. -/
def splitFirstToken (tok : List Char) : List Char → Option (List Char × List Char)
  | [] => if startsWithChars tok [] then some ([], []) else none
  | c :: cs =>
    if startsWithChars tok (c :: cs) then some ([], (c :: cs).drop tok.length)
    else
      match splitFirstToken tok cs with
      | some (pre, post) => some (c :: pre, post)
      | none => none

/-- Translation of the replace call at line 212 of the source: the first match
of the placeholder together with the whitespace around it is replaced by the
bare placeholder. The leftmost match of the pattern starts at the beginning of
the whitespace run preceding the first occurrence of the placeholder and
greedily extends over the whitespace following it. -/
def replaceTmPlaceholder (s : String) : String :=
  match splitFirstToken tmToken s.data with
  | none => s
  | some (pre, post) =>
    let preTrim := (pre.reverse.dropWhile isJsSpace).reverse
    let postTrim := post.dropWhile isJsSpace
    String.mk (preTrim ++ tmToken ++ postTrim)

/-- The options expandAbbr hands to the engine (lines 196-204 of the source):
the retrieved options, with the inlineBreak profile entry forced to one when
wrapping a multi line range. -/
def expandAbbrOptions (eng : Engine) (input : ExpandAbbreviationInput) : ExpandOptions :=
  let expandOptions := eng.getExpandOptions input.syn input.textToWrap
  if jsTruthyStr input.textToWrap && !input.rangeToReplace.isSingleLine then
    { expandOptions with inlineBreak := some 1 }
  else
    expandOptions

/-- Translation of expandAbbr (lines 195-221 of the source): run the engine on
the abbreviation; on success, when wrapping and the output is single line,
strip the whitespace around the wrapped text placeholder; on failure show a
generic error message and produce no text. -/
def expandAbbr (eng : Engine) (input : ExpandAbbreviationInput) : Option String × List Effect :=
  let expandOptions := expandAbbrOptions eng input
  match eng.expand input.abbreviation expandOptions with
  | .ok expandedText =>
    let finalText :=
      if jsTruthyStr input.textToWrap && !(expandedText.data.contains '\n') then
        replaceTmPlaceholder expandedText
      else
        expandedText
    (some finalText, [.engineCall input.abbreviation])
  | .error _ =>
    (none, [.engineCall input.abbreviation, .errorMessage "Failed to expand abbreviation"])

/-- Translation of expandAbbreviationInRange (lines 160-190 of the source).
The first component models the returned value: none when the source returns
undefined, some b when it returns a promise resolving to b. The second
component is the trace of observable effects. -/
def expandAbbreviationInRange (eng : Engine) (ed : Editor)
    (expandAbbrList : List ExpandAbbreviationInput) (insertSameSnippet : Bool) :
    Option Bool × List Effect :=
  match expandAbbrList with
  | [] => (none, [])
  | first :: _ =>
    if !insertSameSnippet then
      let perInput := expandAbbrList.map (fun input =>
        let res := expandAbbr eng input
        match res.1 with
        | some t =>
          if !(t == "") then res.2 ++ [Effect.insertCall t [input.rangeToReplace]]
          else res.2
        | none => res.2)
      (some true, perInput.flatten)
    else
      let res := expandAbbr eng first
      let allRanges := expandAbbrList.map (fun value =>
        mkRange value.rangeToReplace.start value.rangeToReplace.«end»)
      match res.1 with
      | some t =>
        if !(t == "") then
          (some (ed.insertSnippetResult t allRanges), res.2 ++ [Effect.insertCall t allRanges])
        else
          (none, res.2)
      | none => (none, res.2)

/-- A sample engine that succeeds and returns the abbreviation unchanged. -/
def engId : Engine :=
  ⟨fun s w => ⟨s, w, none⟩, fun a _ => .ok a⟩

/-- A sample engine that always fails. -/
def engFail : Engine :=
  ⟨fun s w => ⟨s, w, none⟩, fun _ _ => .error ()⟩

/-- A sample editor whose insertion calls always report success. -/
def edTrue : Editor :=
  ⟨fun _ _ => true⟩

/-- Claim C1 counterexample: with no enclosing node the validator rejects a
stylesheet dialect position, contradicting the claimed value true (and accepts
a markup dialect position, contradicting the claimed value false). -/
theorem stylesheet_topLevel_cex :
    isStyleSheet "css" = true ∧
    isValidLocationForEmmetAbbreviation none "css" ⟨0, 0⟩ = false ∧
    isStyleSheet "html" = false ∧
    isValidLocationForEmmetAbbreviation none "html" ⟨0, 0⟩ = true := by
  refine ⟨by decide, by decide, by decide, by decide⟩

/-- Claim C1 amended: when no parsed node encloses the position, the validator
returns false for stylesheet dialects and true for markup dialects, for every
position. -/
theorem topLevel_validity_amended (syn : String) (p : Position) :
    (isStyleSheet syn = true → isValidLocationForEmmetAbbreviation none syn p = false) ∧
    (isStyleSheet syn = false → isValidLocationForEmmetAbbreviation none syn p = true) := by
  constructor <;> intro h <;> simp [isValidLocationForEmmetAbbreviation, h]

/-- Claim C1 amended, witness at a concrete stylesheet dialect and position. -/
theorem topLevel_validity_amended_witness :
    isStyleSheet "scss" = true ∧
    isValidLocationForEmmetAbbreviation none "scss" ⟨3, 7⟩ = false := by
  exact ⟨by decide, (topLevel_validity_amended "scss" ⟨3, 7⟩).1 (by decide)⟩

/-- Claim C3: in a markup dialect, for a position enclosed by an element node,
the validator returns containment of the position in the inner range when the
element has a closing counterpart and false when it has none. -/
theorem markup_element_validity (syn : String) (node : ParsedNode) (p : Position)
    (h : isStyleSheet syn = false) :
    isValidLocationForEmmetAbbreviation (some node) syn p =
      (node.close && (getInnerRange node).contains p) := by
  simp only [isValidLocationForEmmetAbbreviation, h, Bool.false_eq_true, if_false]
  cases hc : node.close <;> simp [hc]

/-- Claim C3, witness at a concrete element node with a closing counterpart. -/
theorem markup_element_validity_witness :
    isStyleSheet "html" = false ∧
    isValidLocationForEmmetAbbreviation
        (some (ParsedNode.mk "div" none none true ⟨⟨0, 5⟩, ⟨0, 10⟩⟩)) "html" ⟨0, 7⟩ =
      ((ParsedNode.mk "div" none none true ⟨⟨0, 5⟩, ⟨0, 10⟩⟩).close &&
        (getInnerRange (ParsedNode.mk "div" none none true ⟨⟨0, 5⟩, ⟨0, 10⟩⟩)).contains ⟨0, 7⟩) := by
  exact ⟨by decide, markup_element_validity "html" _ ⟨0, 7⟩ (by decide)⟩

/-- Claim C4: in a stylesheet dialect, for a rule node with a selector token and
no applicable nested multi line selector exception, the validator accepts the
position exactly when it lies strictly after the end of the selector token. -/
theorem rule_body_boundary (syn : String) (node : ParsedNode) (p : Position) (tok : Token)
    (hss : isStyleSheet syn = true)
    (hrule : node.type = "rule")
    (hnoexc : (parentIsRule node && selectorTokenMultiLine node) = false)
    (htok : node.selectorToken = some tok) :
    (isValidLocationForEmmetAbbreviation (some node) syn p = true ↔
      (tok.«end».line < p.line ∨
        (tok.«end».line = p.line ∧ tok.«end».character < p.character))) := by
  simp only [isValidLocationForEmmetAbbreviation, hss, hrule, hnoexc, htok, if_true,
    Bool.false_eq_true, if_false, beq_self_eq_true, Bool.not_true, Position.isAfter]
  simp only [Bool.or_eq_true, Bool.and_eq_true, decide_eq_true_eq]
  constructor
  · rintro (h | ⟨h1, h2⟩)
    · exact Or.inl h
    · exact Or.inr ⟨h1.symm, h2⟩
  · rintro (h | ⟨h1, h2⟩)
    · exact Or.inl h
    · exact Or.inr ⟨h1.symm, h2⟩

/-- Claim C4, witness at the boundary of the spec: selector end at line 2
column 10, position (2,11) valid and position (2,10) invalid. -/
theorem rule_body_boundary_witness :
    isValidLocationForEmmetAbbreviation
        (some (ParsedNode.mk "rule" none (some ⟨⟨2, 0⟩, ⟨2, 10⟩⟩) false ⟨⟨0, 0⟩, ⟨0, 0⟩⟩))
        "css" ⟨2, 11⟩ = true ∧
    ¬ isValidLocationForEmmetAbbreviation
        (some (ParsedNode.mk "rule" none (some ⟨⟨2, 0⟩, ⟨2, 10⟩⟩) false ⟨⟨0, 0⟩, ⟨0, 0⟩⟩))
        "css" ⟨2, 10⟩ = true := by
  constructor
  · exact (rule_body_boundary "css"
      (ParsedNode.mk "rule" none (some ⟨⟨2, 0⟩, ⟨2, 10⟩⟩) false ⟨⟨0, 0⟩, ⟨0, 0⟩⟩)
      ⟨2, 11⟩ ⟨⟨2, 0⟩, ⟨2, 10⟩⟩ (by decide) rfl (by decide)
      rfl).mpr (Or.inr ⟨rfl, by decide⟩)
  · intro h
    rcases (rule_body_boundary "css"
      (ParsedNode.mk "rule" none (some ⟨⟨2, 0⟩, ⟨2, 10⟩⟩) false ⟨⟨0, 0⟩, ⟨0, 0⟩⟩)
      ⟨2, 10⟩ ⟨⟨2, 0⟩, ⟨2, 10⟩⟩ (by decide) rfl (by decide)
      rfl).mp h with h1 | ⟨_, h2⟩
    · exact absurd h1 (by decide)
    · exact absurd h2 (by decide)

/-- Claim C5: in a stylesheet dialect, for a rule node whose parent is also a
rule and whose selector token spans more than one line, the validator accepts
every position. -/
theorem nested_rule_multiline_selector (syn : String) (node par : ParsedNode) (tok : Token)
    (p : Position)
    (hss : isStyleSheet syn = true)
    (hrule : node.type = "rule")
    (hpar : node.parent = some par)
    (hparrule : par.type = "rule")
    (htok : node.selectorToken = some tok)
    (hml : tok.start.line ≠ tok.«end».line) :
    isValidLocationForEmmetAbbreviation (some node) syn p = true := by
  have h1 : parentIsRule node = true := by
    simp [parentIsRule, hpar, hparrule]
  have h2 : selectorTokenMultiLine node = true := by
    simp [selectorTokenMultiLine, htok, hml]
  simp [isValidLocationForEmmetAbbreviation, hss, hrule, h1, h2]

/-- Claim C5, witness at a concrete nested rule with a multi line selector and a
position that is not after the selector end. -/
theorem nested_rule_multiline_selector_witness :
    isValidLocationForEmmetAbbreviation
        (some (ParsedNode.mk "rule"
          (some (ParsedNode.mk "rule" none none false ⟨⟨0, 0⟩, ⟨9, 0⟩⟩))
          (some ⟨⟨1, 5⟩, ⟨2, 3⟩⟩) false ⟨⟨0, 0⟩, ⟨0, 0⟩⟩))
        "less" ⟨0, 0⟩ = true := by
  exact nested_rule_multiline_selector "less" _ _ ⟨⟨1, 5⟩, ⟨2, 3⟩⟩ ⟨0, 0⟩ (by decide) rfl rfl
    rfl rfl (by decide)

/-- Claim C7: with a non empty selection the locator returns the selection
itself as the replacement range and its literal document text as the
abbreviation, for either dialect and any external extraction routine. -/
theorem nonempty_selection_locator (extract : TextDocument → Position → Range × String)
    (doc : TextDocument) (sel : Selection) (p : Position) (isHtml : Bool)
    (h : sel.toRange.isEmpty = false) :
    getAbbreviation extract doc sel p isHtml = (sel.toRange, doc.getText sel.toRange) := by
  simp [getAbbreviation, h]

/-- Claim C7, witness at a concrete selection spanning the text abc. -/
theorem nonempty_selection_locator_witness :
    (Selection.mk ⟨0, 0⟩ ⟨0, 3⟩).toRange.isEmpty = false ∧
    getAbbreviation (fun _ _ => (⟨⟨9, 9⟩, ⟨9, 9⟩⟩, "x")) ⟨fun _ => "abc", fun _ => "abc"⟩
        ⟨⟨0, 0⟩, ⟨0, 3⟩⟩ ⟨0, 3⟩ false = (⟨⟨0, 0⟩, ⟨0, 3⟩⟩, "abc") := by
  refine ⟨by decide, ?_⟩
  have h := nonempty_selection_locator (fun _ _ => (⟨⟨9, 9⟩, ⟨9, 9⟩⟩, "x"))
    ⟨fun _ => "abc", fun _ => "abc"⟩ ⟨⟨0, 0⟩, ⟨0, 3⟩⟩ ⟨0, 3⟩ false (by decide)
  exact h.trans (by decide)

/-- Claim C6: with an empty selection in the markup dialect, when the line text
up to the cursor ends in an opening angle bracket followed by a word run, the
locator returns that word run as the abbreviation and the range that covers the
word run together with the preceding bracket. -/
theorem unclosed_tag_locator (extract : TextDocument → Position → Range × String)
    (doc : TextDocument) (sel : Selection) (p : Position) (w : List Char)
    (hempty : sel.toRange.isEmpty = true)
    (hmatch : matchOpenTagEnd ((doc.lineText p.line).data.take p.character) = some w) :
    getAbbreviation extract doc sel p true =
      (⟨⟨p.line, p.character - (w.length + 1)⟩, p⟩, String.mk w) := by
  have ht : Position.translate p 0 (-(((String.mk w).length : Int) + 1)) =
      ⟨p.line, p.character - (w.length + 1)⟩ := by
    simp only [Position.translate, String.length]
    congr 1
    omega
  have hb : Position.isBefore p ⟨p.line, p.character - (w.length + 1)⟩ = false := by
    simp only [Position.isBefore, Bool.or_eq_false_iff, Bool.and_eq_false_iff,
      decide_eq_false_iff_not]
    omega
  simp only [getAbbreviation, hempty, hmatch, Bool.not_true, Bool.false_eq_true, if_false,
    if_true, ht, mkRange, hb]

/-- Claim C6, witness at the spec instance: line text <div with the cursor at
column 4 yields abbreviation div and the range from column 0 to column 4. -/
theorem unclosed_tag_locator_witness :
    matchOpenTagEnd ((("<div" : String)).data.take 4) = some ['d', 'i', 'v'] ∧
    getAbbreviation (fun _ _ => (⟨⟨9, 9⟩, ⟨9, 9⟩⟩, "x")) ⟨fun _ => "<div", fun _ => ""⟩
        ⟨⟨0, 4⟩, ⟨0, 4⟩⟩ ⟨0, 4⟩ true = (⟨⟨0, 0⟩, ⟨0, 4⟩⟩, "div") := by
  refine ⟨by decide, ?_⟩
  have h := unclosed_tag_locator (fun _ _ => (⟨⟨9, 9⟩, ⟨9, 9⟩⟩, "x"))
    ⟨fun _ => "<div", fun _ => ""⟩ ⟨⟨0, 4⟩, ⟨0, 4⟩⟩ ⟨0, 4⟩ ['d', 'i', 'v'] (by decide) (by decide)
  exact h.trans (by decide)

/-- A sample request in the stylesheet dialect. -/
def reqP : ExpandAbbreviationInput :=
  ⟨"css", "p10", ⟨⟨0, 0⟩, ⟨0, 3⟩⟩, none⟩

/-- Sample uniform requests sharing the abbreviation div at distinct ranges. -/
def reqA : ExpandAbbreviationInput :=
  ⟨"html", "div", ⟨⟨0, 0⟩, ⟨0, 3⟩⟩, none⟩

/-- Second sample uniform request. -/
def reqB : ExpandAbbreviationInput :=
  ⟨"html", "div", ⟨⟨1, 0⟩, ⟨1, 3⟩⟩, none⟩

/-- Third sample uniform request. -/
def reqC : ExpandAbbreviationInput :=
  ⟨"html", "div", ⟨⟨2, 5⟩, ⟨2, 8⟩⟩, none⟩

/-- When the engine call of expandAbbr succeeds, its trace is the single engine call. -/
theorem expandAbbr_ok_trace (eng : Engine) (input : ExpandAbbreviationInput) (t : String)
    (h : (expandAbbr eng input).1 = some t) :
    (expandAbbr eng input).2 = [Effect.engineCall input.abbreviation] := by
  cases hx : eng.expand input.abbreviation (expandAbbrOptions eng input) with
  | error e => simp [expandAbbr, hx] at h
  | ok s => simp [expandAbbr, hx]

/-- Rebuilding a well formed range through the range constructor keeps it. -/
theorem mkRange_eq_self (r : Range) (h : r.«end».isBefore r.start = false) :
    mkRange r.start r.«end» = r := by
  simp [mkRange, h]

/-- Claim C9: when the engine fails on a request, expandAbbr shows the generic
error message and returns no text; on the uniform path a failing representative
request yields no returned promise and no insertion effect, so the document is
left unmodified. -/
theorem engine_failure_no_edit (eng : Engine) (ed : Editor) (first : ExpandAbbreviationInput)
    (rest : List ExpandAbbreviationInput)
    (hfail : eng.expand first.abbreviation (expandAbbrOptions eng first) = .error ()) :
    (expandAbbr eng first).1 = none ∧
    Effect.errorMessage "Failed to expand abbreviation" ∈ (expandAbbr eng first).2 ∧
    (expandAbbreviationInRange eng ed (first :: rest) true).1 = none ∧
    ∀ e ∈ (expandAbbreviationInRange eng ed (first :: rest) true).2, e.isInsert = false := by
  have h1 : expandAbbr eng first =
      (none, [.engineCall first.abbreviation,
        .errorMessage "Failed to expand abbreviation"]) := by
    simp [expandAbbr, hfail]
  refine ⟨by simp [h1], by simp [h1], by simp [expandAbbreviationInRange, h1], ?_⟩
  intro e he
  simp only [expandAbbreviationInRange, h1, Bool.not_true, Bool.false_eq_true, if_false,
    List.mem_cons, List.mem_singleton, List.not_mem_nil] at he
  rcases he with rfl | he
  · rfl
  · rcases he with rfl | he
    · rfl
    · simp at he

/-- Claim C9, witness: a failing engine on a concrete uniform batch returns no
text and no promise. -/
theorem engine_failure_no_edit_witness :
    engFail.expand reqP.abbreviation (expandAbbrOptions engFail reqP) = .error () ∧
    (expandAbbr engFail reqP).1 = none ∧
    (expandAbbreviationInRange engFail edTrue [reqP] true).1 = none := by
  refine ⟨rfl, ?_, ?_⟩
  · exact (engine_failure_no_edit engFail edTrue reqP [] rfl).1
  · exact (engine_failure_no_edit engFail edTrue reqP [] rfl).2.2.1

/-- Claim C8: on the uniform path with a successful representative expansion,
the effect trace consists of exactly one engine call, made from the first
request, followed by exactly one insertion call that targets the replacement
ranges of the whole request list at once. -/
theorem uniform_single_insertion (eng : Engine) (ed : Editor)
    (first : ExpandAbbreviationInput) (rest : List ExpandAbbreviationInput) (t : String)
    (hok : (expandAbbr eng first).1 = some t) (hne : t ≠ "")
    (hwf : ∀ r ∈ first :: rest,
      r.rangeToReplace.«end».isBefore r.rangeToReplace.start = false) :
    (expandAbbreviationInRange eng ed (first :: rest) true).2 =
      [Effect.engineCall first.abbreviation,
        Effect.insertCall t ((first :: rest).map (fun v => v.rangeToReplace))] := by
  have htrace := expandAbbr_ok_trace eng first t hok
  have hbe : (t == "") = false := by
    simp [hne]
  have hmap : (first :: rest).map
        (fun v => mkRange v.rangeToReplace.start v.rangeToReplace.«end») =
      (first :: rest).map (fun v => v.rangeToReplace) := by
    refine List.map_congr_left ?_
    intro a ha
    exact mkRange_eq_self _ (hwf a ha)
  simp [expandAbbreviationInRange, hok, htrace, hmap, hbe]

/-- Claim C8, witness: three concrete requests with identical abbreviation text
and distinct ranges produce one engine call and one three range insertion. -/
theorem uniform_single_insertion_witness :
    (expandAbbr engId reqA).1 = some "div" ∧
    (expandAbbreviationInRange engId edTrue [reqA, reqB, reqC] true).2 =
      [Effect.engineCall "div",
        Effect.insertCall "div" [⟨⟨0, 0⟩, ⟨0, 3⟩⟩, ⟨⟨1, 0⟩, ⟨1, 3⟩⟩, ⟨⟨2, 5⟩, ⟨2, 8⟩⟩]] := by
  refine ⟨rfl, ?_⟩
  have h := uniform_single_insertion engId edTrue reqA [reqB, reqC] "div" rfl (by decide)
    (by decide)
  exact h.trans (by decide)

/-- The trace of expandAbbr never contains an insertion effect. -/
theorem expandAbbr_no_insert (eng : Engine) (input : ExpandAbbreviationInput) :
    ∀ e ∈ (expandAbbr eng input).2, e.isInsert = false := by
  intro e he
  cases hx : eng.expand input.abbreviation (expandAbbrOptions eng input) with
  | error u =>
    simp only [expandAbbr, hx, List.mem_cons, List.not_mem_nil, or_false] at he
    rcases he with rfl | rfl <;> rfl
  | ok s =>
    simp only [expandAbbr, hx, List.mem_singleton] at he
    subst he
    rfl

/-- Claim C2 counterexample: on the same non empty request list with a failing
engine, the uniform path returns no value at all, and the non uniform path
returns a promise resolving to true although its trace holds no insertion, so
no edit was applied; both contradict the claim that every non empty list
yields a promise whose boolean indicates whether an edit was applied. -/
theorem orchestrator_return_cex :
    ([reqP] ≠ ([] : List ExpandAbbreviationInput)) ∧
    (expandAbbreviationInRange engFail edTrue [reqP] true).1 = none ∧
    (expandAbbreviationInRange engFail edTrue [reqP] false).1 = some true ∧
    (expandAbbreviationInRange engFail edTrue [reqP] false).2 =
      [Effect.engineCall "p10", Effect.errorMessage "Failed to expand abbreviation"] := by
  exact ⟨by decide, rfl, rfl, by decide⟩

/-- Claim C2 amended: the orchestrator returns no value on an empty request
list. On a non empty list, the non uniform path returns a promise resolving to
true whether or not any edit was applied; the uniform path returns a promise
resolving to a boolean when the representative expansion yields text, and when
it yields no text or empty text it returns no value and performs no edit (its
trace holds no insertion). -/
theorem orchestrator_return_amended (eng : Engine) (ed : Editor)
    (first : ExpandAbbreviationInput) (rest : List ExpandAbbreviationInput) (same : Bool) :
    (expandAbbreviationInRange eng ed [] same).1 = none ∧
    (same = false → (expandAbbreviationInRange eng ed (first :: rest) same).1 = some true) ∧
    (same = true → jsTruthyStr (expandAbbr eng first).1 = false →
      (expandAbbreviationInRange eng ed (first :: rest) same).1 = none ∧
      ∀ e ∈ (expandAbbreviationInRange eng ed (first :: rest) same).2, e.isInsert = false) ∧
    (same = true → jsTruthyStr (expandAbbr eng first).1 = true →
      (expandAbbreviationInRange eng ed (first :: rest) same).1 ≠ none) := by
  refine ⟨rfl, ?_, ?_, ?_⟩
  · rintro rfl
    simp [expandAbbreviationInRange]
  · rintro rfl hf
    have hnoins := expandAbbr_no_insert eng first
    rcases hx : (expandAbbr eng first).1 with _ | t
    · have h2 : expandAbbreviationInRange eng ed (first :: rest) true =
          (none, (expandAbbr eng first).2) := by
        simp [expandAbbreviationInRange, hx]
      rw [h2]
      exact ⟨rfl, hnoins⟩
    · rw [hx] at hf
      simp only [jsTruthyStr, Bool.not_eq_false'] at hf
      have h2 : expandAbbreviationInRange eng ed (first :: rest) true =
          (none, (expandAbbr eng first).2) := by
        simp [expandAbbreviationInRange, hx, hf]
      rw [h2]
      exact ⟨rfl, hnoins⟩
  · rintro rfl hf
    rcases hx : (expandAbbr eng first).1 with _ | t
    · rw [hx] at hf
      simp [jsTruthyStr] at hf
    · rw [hx] at hf
      simp only [jsTruthyStr, Bool.not_eq_true'] at hf
      simp [expandAbbreviationInRange, hx, hf]

/-- Claim C2 amended, witness: a failing uniform batch returns no value with an
insertion free trace, and a non uniform batch returns a promise resolving to
true. -/
theorem orchestrator_return_amended_witness :
    (expandAbbreviationInRange engFail edTrue [reqP] true).1 = none ∧
    (∀ e ∈ (expandAbbreviationInRange engFail edTrue [reqP] true).2, e.isInsert = false) ∧
    (expandAbbreviationInRange engId edTrue [reqA] false).1 = some true := by
  refine ⟨?_, ?_, ?_⟩
  · exact ((orchestrator_return_amended engFail edTrue reqP [] true).2.2.1 rfl (by decide)).1
  · exact ((orchestrator_return_amended engFail edTrue reqP [] true).2.2.1 rfl (by decide)).2
  · exact (orchestrator_return_amended engId edTrue reqA [] false).2.1 rfl

/-- The strict before relation on positions is asymmetric. -/
theorem isBefore_asymm (p q : Position) (h : p.isBefore q = true) : q.isBefore p = false := by
  cases hq : q.isBefore p
  · rfl
  · exfalso
    simp only [Position.isBefore, Bool.or_eq_true, Bool.and_eq_true, decide_eq_true_eq]
      at h hq
    omega

/-- The normalization step at line 34 of the source produces the range running
from the earlier to the later of anchor and active. -/
theorem selection_normalize (sel : Selection) :
    (if sel.isReversed then mkRange sel.active sel.anchor else sel.toRange) =
      ⟨if sel.active.isBefore sel.anchor then sel.active else sel.anchor,
        if sel.active.isBefore sel.anchor then sel.anchor else sel.active⟩ := by
  cases hb : sel.active.isBefore sel.anchor
  · simp [Selection.isReversed, Selection.toRange, hb]
  · simp [Selection.isReversed, Selection.toRange, hb, mkRange, isBefore_asymm _ _ hb]

/-- Widening to a whole line never swaps the endpoints of the range constructor. -/
theorem mkRange_widen (l n : Nat) :
    mkRange ⟨l, 0⟩ ⟨l, n⟩ = ⟨⟨l, 0⟩, ⟨l, n⟩⟩ := by
  simp [mkRange, Position.isBefore]

/-- Claim C10 counterexample: on the line holding three spaces and the letter a,
with the selection from column 0 to column 2, the leading whitespace run
extends past the selection end, the range constructor swaps the endpoints, and
the end of the produced range is not the unchanged selection end. -/
theorem wrap_whitespace_overrun_cex :
    (wrapRequestForSelection ⟨fun _ => "   a", fun _ => ""⟩ "html" "div"
        ⟨⟨0, 0⟩, ⟨0, 2⟩⟩).rangeToReplace = ⟨⟨0, 2⟩, ⟨0, 3⟩⟩ ∧
    (wrapRequestForSelection ⟨fun _ => "   a", fun _ => ""⟩ "html" "div"
        ⟨⟨0, 0⟩, ⟨0, 2⟩⟩).rangeToReplace.«end» ≠ ⟨0, 2⟩ := by
  exact ⟨by decide, by decide⟩

/-- Claim C10 amended: every wrap request carries the fixed wrap text, and its
range arises by normalizing the selection from its earlier to its later
position, widening an empty range to the whole text of its start line, and
rebuilding the range between the start advanced past the leading whitespace run
and the previous end through the order normalizing range constructor, which
swaps the two endpoints when the whitespace run extends past the end. -/
theorem wrap_selection_processing_amended (doc : TextDocument) (syn abbreviation : String)
    (sel : Selection) :
    (wrapRequestForSelection doc syn abbreviation sel).syn = syn ∧
    (wrapRequestForSelection doc syn abbreviation sel).abbreviation = abbreviation ∧
    (wrapRequestForSelection doc syn abbreviation sel).textToWrap =
      some "\n\t$TM_SELECTED_TEXT\n" ∧
    (wrapRequestForSelection doc syn abbreviation sel).rangeToReplace =
      (let lo := if sel.active.isBefore sel.anchor then sel.active else sel.anchor
       let hi := if sel.active.isBefore sel.anchor then sel.anchor else sel.active
       let base : Range :=
         if lo = hi then ⟨⟨lo.line, 0⟩, ⟨lo.line, (doc.lineText lo.line).length⟩⟩
         else ⟨lo, hi⟩
       let ws := (((doc.lineText base.start.line).data.drop base.start.character).takeWhile
           isJsSpace).length
       mkRange ⟨base.start.line, base.start.character + ws⟩ base.«end») := by
  refine ⟨rfl, rfl, rfl, ?_⟩
  simp only [wrapRequestForSelection]
  rw [selection_normalize]
  by_cases hlh : (if sel.active.isBefore sel.anchor then sel.active else sel.anchor) =
      (if sel.active.isBefore sel.anchor then sel.anchor else sel.active)
  · simp [Range.isEmpty, hlh, mkRange_widen]
  · simp [Range.isEmpty, hlh]

end Emmet
